import Mathlib

/-!
Verification of the hierarchical state machine engine (hsm.c / hsm.h).

The C sources are shallowly embedded:
  * `event_t` (uint16) is modelled as `Nat`; no arithmetic is performed on
    event values, so overflow is irrelevant.  The reserved system events
    `HSM_INITIAL`, `HSM_ON_ENTRY`, `HSM_ON_EXIT` keep their enum values.
  * `eventQueue_t` is a record with the same fields; the buffer pointer is a
    `List Nat` and the uint8 indices are `Nat` (the C index update
    `head < length - 1 ? head + 1 : 0` never overflows a uint8, so plain
    `Nat` is faithful there).
  * `state_t` pointers are modelled as `Nat` identifiers together with a
    parent map `p : Nat → Nat`; a root is a state with `p s = s`, exactly
    like the C `parent == self` convention.  Handler invocations performed
    by `setState`/`initHSM` are recorded in an operation trace.
  * the uint8 loop counters of `setState` are modelled as `Nat` with the
    decrement written `(k + 255) % 256`, which is uint8 wraparound; this
    matters because the exit-phase loop of the C code decrements its counter.
-/

namespace Hsm

/-- `HSM_INITIAL` from the `hsm_sys_event_enum` in hsm.h. -/
def HSM_INITIAL : Nat := 0

/-- `HSM_ON_ENTRY` from the `hsm_sys_event_enum` in hsm.h. -/
def HSM_ON_ENTRY : Nat := 1

/-- `HSM_ON_EXIT` from the `hsm_sys_event_enum` in hsm.h. -/
def HSM_ON_EXIT : Nat := 2

/-- `eventQueueError_t` from hsm.h. -/
inductive eventQueueError_t where
  | QUEUE_OK
  | QUEUE_FULL
  | QUEUE_EMPTY
deriving DecidableEq

export eventQueueError_t (QUEUE_OK QUEUE_FULL QUEUE_EMPTY)

/-- `eventQueue_t` from hsm.h: buffer, its length, head/tail indices and the
two disambiguation flags. -/
structure EventQueue where
  queue : List Nat
  length : Nat
  head : Nat
  tail : Nat
  full : Bool
  empty : Bool
deriving DecidableEq

/-- The index update `(i < length - 1) ? i + 1 : 0` used by both `getEvent`
and `putEvent` in hsm.c.  (`Nat` truncated subtraction agrees with the C
integer-promoted `length - 1` comparison for every `length`, including 0.) -/
def nextIdx (L i : Nat) : Nat := if i < L - 1 then i + 1 else 0

/-- `initEventQueue` from hsm.c. -/
def initEventQueue (queue : List Nat) (length : Nat) : EventQueue :=
  { queue := queue, length := length, head := 0, tail := 0,
    full := false, empty := true }

/-- `getEvent` from hsm.c.  The C function writes the popped event through an
out-parameter and returns `QUEUE_OK`, or returns `QUEUE_EMPTY` writing
nothing; this is modelled as an `Option` of the event and updated queue. -/
def getEvent (q : EventQueue) : Option (Nat × EventQueue) :=
  if q.empty then none
  else
    some (q.queue.getD q.tail 0,
      { q with full := false, tail := nextIdx q.length q.tail,
               empty := nextIdx q.length q.tail == q.head })

/-- `putEvent` from hsm.c. -/
def putEvent (q : EventQueue) (e : Nat) : eventQueueError_t × EventQueue :=
  if q.full then (QUEUE_FULL, q)
  else
    (QUEUE_OK,
      { q with queue := q.queue.set q.head e, empty := false,
               head := nextIdx q.length q.head,
               full := q.tail == nextIdx q.length q.head })

/-! ### Abstraction of the circular buffer to a list

`size` and `toList` recover the logical queue contents (oldest first) from
the low-level representation; `WF` is the representation invariant that
initialization establishes and both operations preserve. -/

/-- Number of stored events, read off the representation. -/
def size (q : EventQueue) : Nat :=
  if q.empty then 0
  else if q.tail < q.head then q.head - q.tail
  else q.head + q.length - q.tail

/-- The `n` buffer entries starting at index `i`, following the circular
index update. -/
def listFrom (buf : List Nat) (L : Nat) : Nat → Nat → List Nat
  | _, 0 => []
  | i, n + 1 => buf.getD i 0 :: listFrom buf L (nextIdx L i) n

/-- Logical contents of the queue, oldest event first. -/
def toList (q : EventQueue) : List Nat :=
  listFrom q.queue q.length q.tail (size q)

/-- The circular index reached from `i` after `k` steps of `nextIdx`. -/
def idxAfter (L i : Nat) : Nat → Nat
  | 0 => i
  | k + 1 => idxAfter L (nextIdx L i) k

/-- Representation invariant of `eventQueue_t`. -/
abbrev WF (q : EventQueue) : Prop :=
  q.queue.length = q.length ∧ 1 ≤ q.length ∧
  q.head < q.length ∧ q.tail < q.length ∧
  ¬(q.full = true ∧ q.empty = true) ∧
  (q.empty = true → q.head = q.tail) ∧
  (q.full = true → q.head = q.tail) ∧
  (q.head = q.tail → q.empty = true ∨ q.full = true)

theorem nextIdx_lt (L i : Nat) (hL : 1 ≤ L) (h : i < L) : nextIdx L i < L := by
  unfold nextIdx; split <;> omega

theorem idxAfter_succ (L i k : Nat) :
    idxAfter L i (k + 1) = idxAfter L (nextIdx L i) k := rfl

theorem idxAfter_eq_mod (L : Nat) (hL : 1 ≤ L) :
    ∀ k i, i < L → idxAfter L i k = (i + k) % L := by
  intro k
  induction k with
  | zero => intro i hi; simpa [idxAfter] using (Nat.mod_eq_of_lt hi).symm
  | succ k ih =>
    intro i hi
    rw [idxAfter_succ, ih (nextIdx L i) (nextIdx_lt L i hL hi)]
    unfold nextIdx
    split
    · have harg : i + 1 + k = i + (k + 1) := by omega
      rw [harg]
    · have hiL : i = L - 1 := by omega
      subst hiL
      have : L - 1 + (k + 1) = L + k := by omega
      rw [this, Nat.add_mod_left, Nat.zero_add]

theorem mod_two_regions (x L : Nat) (_hL : 1 ≤ L) (h : x < 2 * L) :
    x % L = if x < L then x else x - L := by
  split
  · exact Nat.mod_eq_of_lt (by omega)
  · rw [Nat.mod_eq_sub_mod (by omega)]
    exact Nat.mod_eq_of_lt (by omega)

theorem idxAfter_eq (L i k : Nat) (hL : 1 ≤ L) (hi : i < L) (hk : k ≤ L) :
    idxAfter L i k = if i + k < L then i + k else i + k - L := by
  rw [idxAfter_eq_mod L hL k i hi, mod_two_regions (i + k) L hL (by omega)]

theorem listFrom_length (buf : List Nat) (L : Nat) :
    ∀ n i, (listFrom buf L i n).length = n := by
  intro n
  induction n with
  | zero => intro i; rfl
  | succ n ih => intro i; simp [listFrom, ih]

theorem getD_set_self (l : List Nat) (i e : Nat) (h : i < l.length) :
    (l.set i e).getD i 0 = e := by
  rw [List.getD_eq_getElem _ _ (by simpa using h), List.getElem_set_self]

theorem getD_set_ne (l : List Nat) (i j e : Nat) (h : i ≠ j) :
    (l.set i e).getD j 0 = l.getD j 0 := by
  by_cases hj : j < l.length
  · rw [List.getD_eq_getElem _ _ (by simpa using hj),
      List.getD_eq_getElem _ _ hj, List.getElem_set_ne h]
  · have h1 : l.length ≤ j := by omega
    rw [List.getD_eq_default _ _ (by simpa using h1), List.getD_eq_default _ _ h1]

theorem listFrom_set (buf : List Nat) (L h e : Nat) (hh : h < L)
    (hbuf : buf.length = L) :
    ∀ n i, i < L → idxAfter L i n = h → (∀ k, k < n → idxAfter L i k ≠ h) →
      listFrom (buf.set h e) L i (n + 1) = listFrom buf L i n ++ [e] := by
  intro n
  induction n with
  | zero =>
    intro i _ hreach _
    have hi : i = h := hreach
    subst hi
    show (buf.set i e).getD i 0 :: listFrom (buf.set i e) L (nextIdx L i) 0
        = [] ++ [e]
    rw [getD_set_self buf i e (by omega)]
    rfl
  | succ n ih =>
    intro i hi hreach hmiss
    have hne : i ≠ h := hmiss 0 (by omega)
    show (buf.set h e).getD i 0 :: listFrom (buf.set h e) L (nextIdx L i) (n + 1)
        = (buf.getD i 0 :: listFrom buf L (nextIdx L i) n) ++ [e]
    rw [getD_set_ne buf h i e (fun hc => hne hc.symm),
      ih (nextIdx L i) (nextIdx_lt L i (by omega) hi) hreach
        (fun k hk => hmiss (k + 1) (by omega))]
    rfl

theorem toList_length (q : EventQueue) : (toList q).length = size q :=
  listFrom_length _ _ _ _

theorem size_le (q : EventQueue) (hWF : WF q) : size q ≤ q.length := by
  obtain ⟨-, hL, hh, ht, -, -, -, -⟩ := hWF
  unfold size; split_ifs <;> omega

theorem size_pos (q : EventQueue) (hWF : WF q) (h : q.empty = false) :
    1 ≤ size q := by
  obtain ⟨-, hL, hh, ht, -, -, -, -⟩ := hWF
  unfold size
  split_ifs with h1 h2
  · rw [h] at h1; exact absurd h1 (by simp)
  · omega
  · omega

theorem empty_iff_size (q : EventQueue) (hWF : WF q) :
    q.empty = true ↔ size q = 0 := by
  constructor
  · intro h; simp [size, h]
  · intro h
    by_contra hc
    have : 1 ≤ size q := size_pos q hWF (by simpa using hc)
    omega

theorem full_iff_size (q : EventQueue) (hWF : WF q) :
    q.full = true ↔ size q = q.length := by
  obtain ⟨hbuf, hL, hh, ht, hb, he, hf, hht⟩ := hWF
  constructor
  · intro h
    have hemp : q.empty = false := by
      cases hq : q.empty
      · rfl
      · exact absurd ⟨h, hq⟩ hb
    have hd : q.head = q.tail := hf h
    unfold size
    rw [hemp]
    simp only [Bool.false_eq_true, if_false]
    split_ifs <;> omega
  · intro h
    cases hq : q.empty
    · unfold size at h
      rw [hq] at h
      simp only [Bool.false_eq_true, if_false] at h
      have hd : q.head = q.tail := by split_ifs at h <;> omega
      rcases hht hd with h1 | h2
      · rw [hq] at h1; exact absurd h1 (by simp)
      · exact h2
    · rw [(empty_iff_size q ⟨hbuf, hL, hh, ht, hb, he, hf, hht⟩).mp hq] at h
      omega

theorem getEvent_none_iff (q : EventQueue) :
    getEvent q = none ↔ q.empty = true := by
  unfold getEvent; split <;> simp_all

/-- `getEvent` on a well-formed non-empty queue pops the oldest event:
the concrete pop refines removing the head of the abstract list. -/
theorem getEvent_spec (q : EventQueue) (hWF : WF q) (hne : q.empty = false) :
    ∃ q', getEvent q = some (q.queue.getD q.tail 0, q') ∧ WF q' ∧
      toList q = q.queue.getD q.tail 0 :: toList q' ∧ size q = size q' + 1 := by
  obtain ⟨hbuf, hL, hh, ht, hb, he, hf, hht⟩ := hWF
  have htt : q.tail ≠ q.head ∨ q.full = true := by
    by_cases hd : q.head = q.tail
    · rcases hht hd with h1 | h2
      · rw [hne] at h1; exact absurd h1 (by simp)
      · exact Or.inr h2
    · exact Or.inl fun hc => hd hc.symm
  have hsz : size q =
      size { q with full := false, tail := nextIdx q.length q.tail,
                    empty := nextIdx q.length q.tail == q.head } + 1 := by
    unfold size nextIdx
    simp only [beq_iff_eq, hne]
    rcases htt with htt | htt
    · split_ifs <;> simp_all <;> omega
    · have hd := hf htt
      split_ifs <;> simp_all <;> omega
  refine ⟨{ q with full := false, tail := nextIdx q.length q.tail,
                   empty := nextIdx q.length q.tail == q.head },
      ?_, ?_, ?_, hsz⟩
  · unfold getEvent
    rw [hne]
    simp
  · refine ⟨hbuf, hL, hh, nextIdx_lt _ _ hL ht, by simp, ?_, by simp, ?_⟩
    · intro hemp
      have hx : nextIdx q.length q.tail = q.head := by
        simpa [beq_iff_eq] using hemp
      exact hx.symm
    · intro hd
      left
      have hd' : q.head = nextIdx q.length q.tail := hd
      simp [beq_iff_eq, hd'.symm]
  · have h1 : toList q = listFrom q.queue q.length q.tail (size q) := rfl
    rw [h1, hsz]
    rfl

theorem putEvent_full (q : EventQueue) (e : Nat) (h : q.full = true) :
    putEvent q e = (QUEUE_FULL, q) := by
  unfold putEvent
  rw [h]
  simp

/-- `putEvent` on a well-formed non-full queue appends the event:
the concrete push refines appending to the abstract list. -/
theorem putEvent_spec (q : EventQueue) (e : Nat) (hWF : WF q) (hnf : q.full = false) :
    (putEvent q e).1 = QUEUE_OK ∧ WF (putEvent q e).2 ∧
      toList (putEvent q e).2 = toList q ++ [e] ∧
      size (putEvent q e).2 = size q + 1 := by
  obtain ⟨hbuf, hL, hh, ht, hb, he, hf, hht⟩ := hWF
  have heq : putEvent q e =
      (QUEUE_OK,
       { q with queue := q.queue.set q.head e, empty := false,
                head := nextIdx q.length q.head,
                full := q.tail == nextIdx q.length q.head }) := by
    unfold putEvent
    rw [hnf]
    simp
  have hd : q.empty = false → q.tail ≠ q.head := by
    intro h1 hc
    rcases hht hc.symm with h2 | h2
    · rw [h1] at h2; exact absurd h2 (by simp)
    · rw [hnf] at h2; exact absurd h2 (by simp)
  have hsz : size { q with queue := q.queue.set q.head e, empty := false,
                           head := nextIdx q.length q.head,
                           full := q.tail == nextIdx q.length q.head }
      = size q + 1 := by
    unfold size nextIdx
    by_cases hqe : q.empty = true
    · have hd2 := he hqe
      simp only [hqe, if_true]
      split_ifs <;> simp_all <;> omega
    · have hqe' : q.empty = false := by simpa using hqe
      have hd2 := hd hqe'
      simp only [hqe']
      split_ifs <;> simp_all <;> omega
  have hsize_le : size q ≤ q.length := size_le q ⟨hbuf, hL, hh, ht, hb, he, hf, hht⟩
  have hreach : idxAfter q.length q.tail (size q) = q.head := by
    rw [idxAfter_eq _ _ _ hL ht hsize_le]
    by_cases hqe : q.empty = true
    · have hd2 := he hqe
      have h0 : size q = 0 := by simp [size, hqe]
      rw [h0]
      split_ifs <;> omega
    · have hqe' : q.empty = false := by simpa using hqe
      have hd2 := hd hqe'
      unfold size
      simp only [hqe']
      split_ifs <;> simp_all <;> omega
  have hmiss : ∀ k, k < size q → idxAfter q.length q.tail k ≠ q.head := by
    intro k hk
    rw [idxAfter_eq _ _ _ hL ht (by omega)]
    by_cases hqe : q.empty = true
    · have h0 : size q = 0 := by simp [size, hqe]
      omega
    · have hqe' : q.empty = false := by simpa using hqe
      have hd2 := hd hqe'
      unfold size at hk
      simp only [hqe'] at hk
      split_ifs <;> split_ifs at hk <;> simp_all <;> omega
  have htl : toList { q with queue := q.queue.set q.head e, empty := false,
                             head := nextIdx q.length q.head,
                             full := q.tail == nextIdx q.length q.head }
      = toList q ++ [e] := by
    show listFrom (q.queue.set q.head e) q.length q.tail
        (size { q with queue := q.queue.set q.head e, empty := false,
                       head := nextIdx q.length q.head,
                       full := q.tail == nextIdx q.length q.head })
      = toList q ++ [e]
    rw [hsz]
    exact listFrom_set q.queue q.length q.head e hh hbuf (size q) q.tail ht hreach hmiss
  rw [heq]
  refine ⟨rfl, ?_, htl, hsz⟩
  refine ⟨by simpa using hbuf, hL, nextIdx_lt _ _ hL hh, ht,
    fun hc => Bool.false_ne_true hc.2, fun hc => absurd hc Bool.false_ne_true, ?_, ?_⟩
  · intro hfl
    have hx : q.tail = nextIdx q.length q.head := by simpa [beq_iff_eq] using hfl
    exact hx.symm
  · intro hd2
    right
    have hd' : nextIdx q.length q.head = q.tail := hd2
    simp [beq_iff_eq, hd'.symm]

theorem initEventQueue_WF (buf : List Nat) (L : Nat) (hbuf : buf.length = L)
    (hL : 1 ≤ L) : WF (initEventQueue buf L) := by
  refine ⟨hbuf, hL, hL, hL, by simp [initEventQueue], fun _ => rfl, ?_, fun _ => Or.inl rfl⟩
  intro h
  simp [initEventQueue] at h

theorem toList_initEventQueue (buf : List Nat) (L : Nat) :
    toList (initEventQueue buf L) = [] := by
  simp [toList, size, initEventQueue, listFrom]

/-! ### The state hierarchy and the machine

`state_t` values are identified by `Nat` ids; the hierarchy is a parent map
`p : Nat → Nat`, with a root being a state whose parent is itself, mirroring
the C convention `parent == self`.  The `history` field of `state_t` is
never read by the algorithm and is not modelled.  Handler invocations made
by `setState`/`initHSM` are recorded as an operation trace. -/

/-- `hsm_t` from hsm.h: the current state and the bound event queue. -/
structure HSM where
  currentState : Nat
  eventQueue : EventQueue
deriving DecidableEq

/-- One observable step of `setState`/`initHSM`: a handler invocation
`fire s e` (the C call `s->handler(e)`), the assignment of
`hsm->currentState`, or a `sendEvent` call. -/
inductive Op where
  | fire (s e : Nat)
  | assign (s : Nat)
  | send (e : Nat)
deriving DecidableEq

/-- `sendEvent` from hsm.c: pushes through `putEvent` and discards the
returned status (the C function returns `void`).  The interrupt mask pair
around the push is a no-op in this single-threaded model. -/
def sendEvent (m : HSM) (e : Nat) : HSM :=
  { m with eventQueue := (putEvent m.eventQueue e).2 }

/-- `initHSM` from hsm.c: bind the state and queue, then call the initial
state's handler with `HSM_INITIAL` directly (not through the queue). -/
def initHSM (initialState : Nat) (eventQueue : EventQueue) : List Op × HSM :=
  ([Op.fire initialState HSM_INITIAL],
   { currentState := initialState, eventQueue := eventQueue })

/-- uint8 decrement with wraparound, as performed on the counters of
`setState` (`curr_path_cntr--`, `dest_path_cntr--`, `i--`). -/
def dec8 (n : Nat) : Nat := (n + 255) % 256

/-- The path-building loop of `setState`: starting from `s`, follow `parent`
until a self-parented node, producing `[s, parent(s), …, root]`.  The C code
writes into a 16-entry array with no bound check; `fuel` models the available
slots past the first (15 for the real array), and a hierarchy deeper than
the array is the out-of-bounds case the spec excludes. -/
def buildPathAux (p : Nat → Nat) : Nat → Nat → List Nat
  | s, 0 => [s]
  | s, fuel + 1 => if p s = s then [s] else s :: buildPathAux p (p s) fuel

/-- The `up_path`/`down_path` array contents built by `setState` for a
hierarchy that fits the 16-entry arrays. -/
def buildPath (p : Nat → Nat) (s : Nat) : List Nat := buildPathAux p s 15

/-- `reachesRoot p s fuel` holds when the ancestor chain of `s` reaches a
self-parented root within `fuel` parent steps; `reachesRoot p s 15` is the
"ancestor chain fits the 16-entry path arrays" precondition. -/
def reachesRoot (p : Nat → Nat) : Nat → Nat → Bool
  | s, 0 => p s == s
  | s, fuel + 1 => p s == s || reachesRoot p (p s) fuel

/-- The compare-and-prune loop of `setState`: walk both paths inward from
their root ends while the entries coincide.  Returns
`(no_exit, no_entry, curr_path_cntr, dest_path_cntr)` as left by the loop.
The decrements are uint8 decrements.  `fuel` only bounds the number of
recursive (both-counters-decrement) iterations so that the recursion is
structural: each such iteration has `cc ≥ 1` and decrements `cc`, so the C
loop performs at most `cc` of them and `setState` passes the initial `cc`
as fuel, making the fuel-exhausted branch unreachable. -/
def pruneLoop (up down : List Nat) : Nat → Nat → Nat → Bool × Bool × Nat × Nat
  | 0, cc, dc =>
    if up.getD cc 0 = down.getD dc 0 then
      if cc = 0 then (true, false, 0, dec8 dc)
      else if dc = 0 then (false, true, dec8 cc, 0)
      else (false, false, cc, dc)
    else (false, false, cc, dc)
  | fuel + 1, cc, dc =>
    if up.getD cc 0 = down.getD dc 0 then
      if cc = 0 then (true, false, 0, dec8 dc)
      else if dc = 0 then (false, true, dec8 cc, 0)
      else pruneLoop up down fuel (dec8 cc) (dec8 dc)
    else (false, false, cc, dc)

/-- The exit-phase loop of `setState`:
`uint8_t i = 0; while (i <= cc) { up[i]->handler(ON_EXIT); i--; }`.
The decrement `i--` wraps `0` to `255`, so the loop body runs again only if
`cc = 255`; `fuel = 256` covers every terminating execution of the C loop
(for `cc = 255` the C loop never terminates). -/
def exitLoop (up : List Nat) (cc : Nat) : Nat → Nat → List Nat
  | _, 0 => []
  | i, fuel + 1 => if i ≤ cc then up.getD i 0 :: exitLoop up cc (dec8 i) fuel else []

/-- The entry-phase loop of `setState`:
`i = dc + 1; do { i--; down[i]->handler(ON_ENTRY); } while (i != 0);`
with `i` a uint8. -/
def entryLoop (down : List Nat) : Nat → Nat → List Nat
  | _, 0 => []
  | i, fuel + 1 =>
    down.getD (dec8 i) 0 ::
      (if dec8 i = 0 then [] else entryLoop down (dec8 i) fuel)

/-- `setState` from hsm.c, as the trace of handler invocations, state
assignment and send performed, together with the machine it leaves behind. -/
def setState (p : Nat → Nat) (m : HSM) (s : Nat) : List Op × HSM :=
  if m.currentState = s then
    ([Op.fire s HSM_ON_EXIT, Op.fire s HSM_ON_ENTRY, Op.send HSM_INITIAL],
     sendEvent m HSM_INITIAL)
  else
    match pruneLoop (buildPath p m.currentState) (buildPath p s)
        ((buildPath p m.currentState).length - 1)
        ((buildPath p m.currentState).length - 1)
        ((buildPath p s).length - 1) with
    | (noExitF, noEntryF, cc, dc) =>
      ((if noExitF then []
        else (exitLoop (buildPath p m.currentState) cc 0 256).map
          (fun st => Op.fire st HSM_ON_EXIT)) ++
       (if noEntryF then []
        else (entryLoop (buildPath p s) ((dc + 1) % 256) 256).map
          (fun st => Op.fire st HSM_ON_ENTRY)) ++
       [Op.assign s, Op.send HSM_INITIAL],
       sendEvent { m with currentState := s } HSM_INITIAL)

/-- `processHSM` from hsm.c: pop and dispatch to the handler of the state
that is current at the moment of dispatch, until a pop reports empty.
Handlers are arbitrary machine transformers `h`, as the C handlers are
arbitrary code; the returned list logs each `(state, event)` invocation.
`fuel` bounds the number of iterations (`none` = the bound was reached);
the C loop has no bound and need not terminate. -/
def processHSM (h : Nat → Nat → HSM → HSM) : Nat → HSM → Option (HSM × List (Nat × Nat))
  | 0, m =>
    match getEvent m.eventQueue with
    | none => some (m, [])
    | some _ => none
  | fuel + 1, m =>
    match getEvent m.eventQueue with
    | none => some (m, [])
    | some (e, q') =>
      match processHSM h fuel (h m.currentState e { m with eventQueue := q' }) with
      | none => none
      | some (mf, log) => some (mf, (m.currentState, e) :: log)

/-- The states on which a trace fires `HSM_ON_ENTRY`, in firing order. -/
def entriesOf (ops : List Op) : List Nat :=
  ops.filterMap fun o =>
    match o with
    | Op.fire s e => if e = HSM_ON_ENTRY then some s else none
    | _ => none

/-- The states on which a trace fires `HSM_ON_EXIT`, in firing order. -/
def exitsOf (ops : List Op) : List Nat :=
  ops.filterMap fun o =>
    match o with
    | Op.fire s e => if e = HSM_ON_EXIT then some s else none
    | _ => none

/-! ### Test harness for queue scenarios -/

/-- Push a list of events in order, keeping only the queue. -/
def pushAll (q : EventQueue) (es : List Nat) : EventQueue :=
  es.foldl (fun a e => (putEvent a e).2) q

/-- Whether every push in a sequence of pushes reports `QUEUE_OK`. -/
def okAll (q : EventQueue) : List Nat → Bool
  | [] => true
  | e :: es => (putEvent q e).1 == QUEUE_OK && okAll (putEvent q e).2 es

/-- Pop up to `fuel` events, collecting them in pop order. -/
def drain (q : EventQueue) : Nat → List Nat
  | 0 => []
  | fuel + 1 =>
    match getEvent q with
    | none => []
    | some (e, q') => e :: drain q' fuel

/-- The queue left after one pop (unchanged when the pop reports empty). -/
def popQ (q : EventQueue) : EventQueue :=
  match getEvent q with
  | none => q
  | some (_, q') => q'

theorem pushAll_spec : ∀ (es : List Nat) (q : EventQueue), WF q →
    (toList q).length + es.length ≤ q.length →
    okAll q es = true ∧ WF (pushAll q es) ∧
      toList (pushAll q es) = toList q ++ es := by
  intro es
  induction es with
  | nil => intro q hWF _; exact ⟨rfl, hWF, by simp [pushAll]⟩
  | cons e es ih =>
    intro q hWF hlen
    have hsame : q.queue.length = q.length := hWF.1
    have hnf : q.full = false := by
      cases hq : q.full
      · rfl
      · have := (full_iff_size q hWF).mp hq
        rw [toList_length] at hlen
        simp at hlen
        omega
    obtain ⟨hok, hWF', htl, hsz⟩ := putEvent_spec q e hWF hnf
    have hL2 : (putEvent q e).2.length = q.length := by
      unfold putEvent
      rw [hnf]
      simp
    have hlen' : (toList (putEvent q e).2).length + es.length ≤ (putEvent q e).2.length := by
      rw [htl, hL2]
      simp only [List.length_append, List.length_singleton]
      simp only [List.length_cons] at hlen
      omega
    obtain ⟨hok2, hWF2, htl2⟩ := ih (putEvent q e).2 hWF' hlen'
    refine ⟨?_, ?_, ?_⟩
    · unfold okAll
      rw [hok, hok2]
      rfl
    · have hfold : pushAll q (e :: es) = pushAll (putEvent q e).2 es := rfl
      rw [hfold]
      exact hWF2
    · have hfold : pushAll q (e :: es) = pushAll (putEvent q e).2 es := rfl
      rw [hfold, htl2, htl]
      simp

/-- C6: the event queue is strictly FIFO.  A push on a well-formed non-full
queue appends the event to the abstract contents, a pop on a non-empty queue
removes exactly the oldest event, and a pop on an empty queue reports empty
— so, for any sequence of at most `capacity` buffered pushes interleaved
with pops, pops return events in push order.  The concrete capacity-4
scenario of the spec (fill with e1..e4, drop e5, pop e1, push e5, drain
e2,e3,e4,e5) is checked literally, wrap-around included. -/
theorem queue_fifo :
    (∀ q e, WF q → q.full = false →
      (putEvent q e).1 = QUEUE_OK ∧ WF (putEvent q e).2 ∧
        toList (putEvent q e).2 = toList q ++ [e]) ∧
    (∀ q, WF q → toList q = [] → getEvent q = none) ∧
    (∀ q e rest, WF q → toList q = e :: rest →
      ∃ q', getEvent q = some (e, q') ∧ WF q' ∧ toList q' = rest) ∧
    (toList (pushAll (initEventQueue [0, 0, 0, 0] 4) [10, 20, 30, 40]) = [10, 20, 30, 40] ∧
     (pushAll (initEventQueue [0, 0, 0, 0] 4) [10, 20, 30, 40]).full = true ∧
     (getEvent (pushAll (initEventQueue [0, 0, 0, 0] 4) [10, 20, 30, 40])).map Prod.fst = some 10 ∧
     drain (pushAll (popQ (pushAll (initEventQueue [0, 0, 0, 0] 4) [10, 20, 30, 40])) [50]) 5
       = [20, 30, 40, 50]) := by
  refine ⟨?_, ?_, ?_, by decide, by decide, by decide, by decide⟩
  · intro q e hWF hnf
    obtain ⟨h1, h2, h3, -⟩ := putEvent_spec q e hWF hnf
    exact ⟨h1, h2, h3⟩
  · intro q hWF htl
    have h0 : size q = 0 := by rw [← toList_length, htl]; rfl
    exact (getEvent_none_iff q).mpr ((empty_iff_size q hWF).mpr h0)
  · intro q e rest hWF htl
    have hne : q.empty = false := by
      cases hq : q.empty
      · rfl
      · have := (empty_iff_size q hWF).mp hq
        rw [← toList_length, htl] at this
        simp at this
    obtain ⟨q', hget, hWF', htl', -⟩ := getEvent_spec q hWF hne
    rw [htl] at htl'
    obtain ⟨he, hrest⟩ : e = q.queue.getD q.tail 0 ∧ rest = toList q' := by
      constructor
      · exact (List.cons.injEq _ _ _ _ ▸ htl').1
      · exact (List.cons.injEq _ _ _ _ ▸ htl').2
    exact ⟨q', he ▸ hget, hWF', hrest.symm⟩

/-- Witness for C6 at a concrete queue: push 7 onto a fresh 2-slot queue. -/
theorem queue_fifo_witness :
    WF (initEventQueue [0, 0] 2) ∧ (initEventQueue [0, 0] 2).full = false ∧
      ((putEvent (initEventQueue [0, 0] 2) 7).1 = QUEUE_OK ∧
       WF (putEvent (initEventQueue [0, 0] 2) 7).2 ∧
       toList (putEvent (initEventQueue [0, 0] 2) 7).2 =
         toList (initEventQueue [0, 0] 2) ++ [7]) :=
  ⟨by decide, by decide, queue_fifo.1 (initEventQueue [0, 0] 2) 7 (by decide) (by decide)⟩

/-- C7: a push on a full queue is rejected with `QUEUE_FULL` and the whole
queue is returned unchanged (the event is dropped, nothing overwritten);
after exactly `capacity` successful pushes from a fresh queue the queue
reports full; and from any well-formed full queue, popping once allows
exactly one more successful push (the push after that is rejected). -/
theorem putEvent_full_spec :
    (∀ q e, q.full = true → putEvent q e = (QUEUE_FULL, q)) ∧
    (∀ buf L es, buf.length = L → 1 ≤ L → es.length = L →
      okAll (initEventQueue buf L) es = true ∧
      (pushAll (initEventQueue buf L) es).full = true) ∧
    (∀ q x y, WF q → q.full = true →
      ∃ e q', getEvent q = some (e, q') ∧
        (putEvent q' x).1 = QUEUE_OK ∧
        (putEvent (putEvent q' x).2 y).1 = QUEUE_FULL) := by
  refine ⟨putEvent_full, ?_, ?_⟩
  · intro buf L es hbuf hL hes
    have hWF := initEventQueue_WF buf L hbuf hL
    have hlen : (toList (initEventQueue buf L)).length + es.length ≤
        (initEventQueue buf L).length := by
      rw [toList_initEventQueue]
      simp [initEventQueue, hes]
    obtain ⟨hok, hWF', htl⟩ := pushAll_spec es (initEventQueue buf L) hWF hlen
    refine ⟨hok, ?_⟩
    rw [full_iff_size _ hWF', ← toList_length, htl, toList_initEventQueue]
    have hLsame : (pushAll (initEventQueue buf L) es).length = L := by
      have : ∀ (l : List Nat) (q : EventQueue), (pushAll q l).length = q.length := by
        intro l
        induction l with
        | nil => intro q; rfl
        | cons e l ihl =>
          intro q
          have h1 : pushAll q (e :: l) = pushAll (putEvent q e).2 l := rfl
          rw [h1, ihl]
          unfold putEvent
          split <;> rfl
      rw [this es (initEventQueue buf L)]
      rfl
    simp [hLsame, hes]
  · intro q x y hWF hfl
    have hszL := (full_iff_size q hWF).mp hfl
    have hL : 1 ≤ q.length := hWF.2.1
    have hne : q.empty = false := by
      cases hq : q.empty
      · rfl
      · have := (empty_iff_size q hWF).mp hq
        omega
    obtain ⟨q', hget, hWF', -, hsz⟩ := getEvent_spec q hWF hne
    have hsz' : size q' + 1 = q.length := by omega
    have hq'len : q'.length = q.length := by
      have h2 := hget
      unfold getEvent at h2
      rw [hne] at h2
      simp at h2
      rw [← h2]
    have hnf' : q'.full = false := by
      cases hq : q'.full
      · rfl
      · have := (full_iff_size q' hWF').mp hq
        omega
    obtain ⟨hok, hWF'', -, hsz''⟩ := putEvent_spec q' x hWF' hnf'
    have hfl'' : (putEvent q' x).2.full = true := by
      rw [full_iff_size _ hWF'']
      have hlen'' : (putEvent q' x).2.length = q'.length := by
        unfold putEvent
        rw [hnf']
        rfl
      omega
    exact ⟨_, q', hget, hok, by rw [putEvent_full _ y hfl'']⟩

/-- Witness for C7 at a concrete full queue of capacity 2. -/
theorem putEvent_full_spec_witness :
    WF (pushAll (initEventQueue [0, 0] 2) [5, 6]) ∧
      (pushAll (initEventQueue [0, 0] 2) [5, 6]).full = true ∧
      (∃ e q', getEvent (pushAll (initEventQueue [0, 0] 2) [5, 6]) = some (e, q') ∧
        (putEvent q' 7).1 = QUEUE_OK ∧
        (putEvent (putEvent q' 7).2 8).1 = QUEUE_FULL) :=
  ⟨by decide, by decide,
    putEvent_full_spec.2.2 (pushAll (initEventQueue [0, 0] 2) [5, 6]) 7 8
      (by decide) (by decide)⟩

/-- The two-flag part of the queue representation invariant: the flags are
never both set, and `head = tail` is resolved by one of them. -/
abbrev queueInv (q : EventQueue) : Prop :=
  ¬(q.full = true ∧ q.empty = true) ∧
  (q.head = q.tail → q.empty = true ∨ q.full = true)

/-- C8: `full` and `empty` are never both set: the predicate holds after
`initEventQueue` and is preserved by every push and pop, successful or
failing (a failing push or pop leaves the queue unchanged); moreover the
invariant `queueInv` is itself preserved, and under it a queue with
`head = tail` has exactly one of the two flags set. -/
theorem queue_flags_invariant :
    (∀ buf L, queueInv (initEventQueue buf L)) ∧
    (∀ q e, ¬(q.full = true ∧ q.empty = true) →
      ¬((putEvent q e).2.full = true ∧ (putEvent q e).2.empty = true)) ∧
    (∀ q e q', ¬(q.full = true ∧ q.empty = true) → getEvent q = some (e, q') →
      ¬(q'.full = true ∧ q'.empty = true)) ∧
    (∀ q e, queueInv q → queueInv (putEvent q e).2) ∧
    (∀ q e q', queueInv q → getEvent q = some (e, q') → queueInv q') ∧
    (∀ q, queueInv q → q.head = q.tail →
      (q.empty = true ∧ q.full = false) ∨ (q.empty = false ∧ q.full = true)) := by
  have hput : ∀ q e, ¬(q.full = true ∧ q.empty = true) →
      ¬((putEvent q e).2.full = true ∧ (putEvent q e).2.empty = true) := by
    intro q e hq
    unfold putEvent
    cases hf : q.full
    · simp
    · simpa [hf] using hq
  have hget : ∀ q e q', getEvent q = some (e, q') →
      q'.full = false ∧ (q'.empty = true → q'.head = q'.tail) := by
    intro q e q' hg
    unfold getEvent at hg
    cases he : q.empty
    · rw [he] at hg
      simp at hg
      rw [← hg.2]
      refine ⟨rfl, ?_⟩
      intro hemp
      have hx : nextIdx q.length q.tail = q.head := by simpa [beq_iff_eq] using hemp
      exact hx.symm
    · rw [he] at hg
      simp at hg
  refine ⟨?_, hput, ?_, ?_, ?_, ?_⟩
  · intro buf L
    exact ⟨by simp [initEventQueue], fun _ => Or.inl rfl⟩
  · intro q e q' _ hg
    have := (hget q e q' hg).1
    rw [this]
    simp
  · intro q e hq
    obtain ⟨h1, h2⟩ := hq
    refine ⟨hput q e h1, ?_⟩
    unfold putEvent
    cases hf : q.full
    · rw [if_neg Bool.false_ne_true]
      intro hd
      right
      have hd' : nextIdx q.length q.head = q.tail := hd
      show (q.tail == nextIdx q.length q.head) = true
      simp [beq_iff_eq, hd'.symm]
    · rw [if_pos rfl]
      exact fun _ => Or.inr hf
  · intro q e q' hq hg
    obtain ⟨hfl, hemp⟩ := hget q e q' hg
    refine ⟨by rw [hfl]; simp, ?_⟩
    intro hd
    unfold getEvent at hg
    cases he : q.empty
    · rw [he] at hg
      simp at hg
      rw [← hg.2]
      left
      have hd2 : q.head = nextIdx q.length q.tail := by
        rw [← hg.2] at hd
        exact hd
      simp [beq_iff_eq, hd2.symm]
    · rw [he] at hg
      simp at hg
  · intro q hq hd
    obtain ⟨h1, h2⟩ := hq
    rcases h2 hd with he | hf
    · left
      refine ⟨he, ?_⟩
      cases hfq : q.full
      · rfl
      · exact absurd ⟨hfq, he⟩ h1
    · right
      refine ⟨?_, hf⟩
      cases heq : q.empty
      · rfl
      · exact absurd ⟨hf, heq⟩ h1

/-- Witness for C8 at concrete queues. -/
theorem queue_flags_invariant_witness :
    queueInv (initEventQueue [0, 0] 2) ∧ (initEventQueue [0, 0] 2).head = (initEventQueue [0, 0] 2).tail ∧
      (((initEventQueue [0, 0] 2).empty = true ∧ (initEventQueue [0, 0] 2).full = false) ∨
       ((initEventQueue [0, 0] 2).empty = false ∧ (initEventQueue [0, 0] 2).full = true)) :=
  ⟨by decide, by decide,
    queue_flags_invariant.2.2.2.2.2 (initEventQueue [0, 0] 2) (by decide) (by decide)⟩

/-! ### Concrete hierarchies used by witnesses and the exit-phase refutation -/

/-- Test hierarchy `Root(0) ← A(1) ← {A1(2), A2(3)}`. -/
def tp : Nat → Nat := fun n =>
  match n with
  | 1 => 0
  | 2 => 1
  | 3 => 1
  | _ => 0

/-- Deeper test hierarchy `Root(0) ← A(1) ← {A1(2) ← A11(3), A2(4)}`. -/
def dp : Nat → Nat := fun n =>
  match n with
  | 1 => 0
  | 2 => 1
  | 3 => 2
  | 4 => 1
  | _ => 0

/-- C3: a self-transition `setState(hsm, currentState)` produces exactly the
trace `ON_EXIT` on that state, then `ON_ENTRY` on that state, then one
`sendEvent`; no other handler is invoked, the current state is unchanged,
and (queue not full) exactly the event `HSM_INITIAL` is appended to the
queue contents. -/
theorem setState_self_spec (p : Nat → Nat) (m : HSM)
    (hWF : WF m.eventQueue) (hnf : m.eventQueue.full = false) :
    (setState p m m.currentState).1 =
      [Op.fire m.currentState HSM_ON_EXIT, Op.fire m.currentState HSM_ON_ENTRY,
       Op.send HSM_INITIAL] ∧
    (setState p m m.currentState).2.currentState = m.currentState ∧
    toList (setState p m m.currentState).2.eventQueue =
      toList m.eventQueue ++ [HSM_INITIAL] ∧
    WF (setState p m m.currentState).2.eventQueue := by
  have hss : setState p m m.currentState =
      ([Op.fire m.currentState HSM_ON_EXIT, Op.fire m.currentState HSM_ON_ENTRY,
        Op.send HSM_INITIAL], sendEvent m HSM_INITIAL) := by
    unfold setState
    rw [if_pos rfl]
  obtain ⟨-, hWF', htl, -⟩ := putEvent_spec m.eventQueue HSM_INITIAL hWF hnf
  rw [hss]
  exact ⟨rfl, rfl, htl, hWF'⟩

/-- Witness for C3: self-transition on state 2 with an empty 4-slot queue. -/
theorem setState_self_spec_witness :
    WF (HSM.mk 2 (initEventQueue [0, 0, 0, 0] 4)).eventQueue ∧
    (HSM.mk 2 (initEventQueue [0, 0, 0, 0] 4)).eventQueue.full = false ∧
    ((setState tp (HSM.mk 2 (initEventQueue [0, 0, 0, 0] 4)) 2).1 =
      [Op.fire 2 HSM_ON_EXIT, Op.fire 2 HSM_ON_ENTRY, Op.send HSM_INITIAL] ∧
     (setState tp (HSM.mk 2 (initEventQueue [0, 0, 0, 0] 4)) 2).2.currentState = 2 ∧
     toList (setState tp (HSM.mk 2 (initEventQueue [0, 0, 0, 0] 4)) 2).2.eventQueue =
       toList (HSM.mk 2 (initEventQueue [0, 0, 0, 0] 4)).eventQueue ++ [HSM_INITIAL] ∧
     WF (setState tp (HSM.mk 2 (initEventQueue [0, 0, 0, 0] 4)) 2).2.eventQueue) :=
  ⟨by decide, by decide,
    setState_self_spec tp (HSM.mk 2 (initEventQueue [0, 0, 0, 0] 4)) (by decide) (by decide)⟩

/-- C4: every general (non-self) transition ends with `currentState = t` and
the queue advanced by exactly one `putEvent` of `HSM_INITIAL` (so, when the
queue is not full, exactly one `HSM_INITIAL` is appended via the send path,
accepted with `QUEUE_OK`); no other machine field changes, and the trace
places the state assignment and the send after every handler invocation,
all of which are `ON_EXIT`/`ON_ENTRY` fires. -/
theorem setState_general_spec (p : Nat → Nat) (m : HSM) (t : Nat)
    (hne : m.currentState ≠ t) :
    (∃ fs, (setState p m t).1 = fs ++ [Op.assign t, Op.send HSM_INITIAL] ∧
      ∀ op ∈ fs, ∃ s e, (e = HSM_ON_EXIT ∨ e = HSM_ON_ENTRY) ∧ op = Op.fire s e) ∧
    (setState p m t).2 =
      { currentState := t, eventQueue := (putEvent m.eventQueue HSM_INITIAL).2 } ∧
    (WF m.eventQueue → m.eventQueue.full = false →
      (putEvent m.eventQueue HSM_INITIAL).1 = QUEUE_OK ∧
      toList (setState p m t).2.eventQueue = toList m.eventQueue ++ [HSM_INITIAL]) := by
  rcases hpr : pruneLoop (buildPath p m.currentState) (buildPath p t)
      ((buildPath p m.currentState).length - 1)
      ((buildPath p m.currentState).length - 1)
      ((buildPath p t).length - 1) with ⟨noExitF, noEntryF, cc, dc⟩
  have hss : setState p m t =
      ((if noExitF then []
        else (exitLoop (buildPath p m.currentState) cc 0 256).map
          (fun st => Op.fire st HSM_ON_EXIT)) ++
       (if noEntryF then []
        else (entryLoop (buildPath p t) ((dc + 1) % 256) 256).map
          (fun st => Op.fire st HSM_ON_ENTRY)) ++
       [Op.assign t, Op.send HSM_INITIAL],
       sendEvent { m with currentState := t } HSM_INITIAL) := by
    unfold setState
    rw [if_neg hne, hpr]
  refine ⟨⟨(if noExitF then []
      else (exitLoop (buildPath p m.currentState) cc 0 256).map
        (fun st => Op.fire st HSM_ON_EXIT)) ++
      (if noEntryF then []
      else (entryLoop (buildPath p t) ((dc + 1) % 256) 256).map
        (fun st => Op.fire st HSM_ON_ENTRY)), ?_, ?_⟩, ?_, ?_⟩
  · rw [hss]
  · intro op hop
    rcases List.mem_append.mp hop with hm | hm
    · cases noExitF
      · simp only [Bool.false_eq_true, if_false] at hm
        obtain ⟨st, -, heq⟩ := List.mem_map.mp hm
        exact ⟨st, HSM_ON_EXIT, Or.inl rfl, heq.symm⟩
      · simp at hm
    · cases noEntryF
      · simp only [Bool.false_eq_true, if_false] at hm
        obtain ⟨st, -, heq⟩ := List.mem_map.mp hm
        exact ⟨st, HSM_ON_ENTRY, Or.inr rfl, heq.symm⟩
      · simp at hm
  · rw [hss]
    rfl
  · intro hWF hnf
    obtain ⟨hok, -, htl, -⟩ := putEvent_spec m.eventQueue HSM_INITIAL hWF hnf
    refine ⟨hok, ?_⟩
    rw [hss]
    exact htl

/-- Witness for C4: sibling transition from state 2 to state 3. -/
theorem setState_general_spec_witness :
    (HSM.mk 2 (initEventQueue [0, 0, 0, 0] 4)).currentState ≠ 3 ∧
    ((∃ fs, (setState tp (HSM.mk 2 (initEventQueue [0, 0, 0, 0] 4)) 3).1 =
        fs ++ [Op.assign 3, Op.send HSM_INITIAL] ∧
      ∀ op ∈ fs, ∃ s e, (e = HSM_ON_EXIT ∨ e = HSM_ON_ENTRY) ∧ op = Op.fire s e) ∧
     (setState tp (HSM.mk 2 (initEventQueue [0, 0, 0, 0] 4)) 3).2 =
      { currentState := 3,
        eventQueue := (putEvent (HSM.mk 2 (initEventQueue [0, 0, 0, 0] 4)).eventQueue HSM_INITIAL).2 } ∧
     (WF (HSM.mk 2 (initEventQueue [0, 0, 0, 0] 4)).eventQueue →
      (HSM.mk 2 (initEventQueue [0, 0, 0, 0] 4)).eventQueue.full = false →
      (putEvent (HSM.mk 2 (initEventQueue [0, 0, 0, 0] 4)).eventQueue HSM_INITIAL).1 = QUEUE_OK ∧
      toList (setState tp (HSM.mk 2 (initEventQueue [0, 0, 0, 0] 4)) 3).2.eventQueue =
        toList (HSM.mk 2 (initEventQueue [0, 0, 0, 0] 4)).eventQueue ++ [HSM_INITIAL])) :=
  ⟨by decide, setState_general_spec tp (HSM.mk 2 (initEventQueue [0, 0, 0, 0] 4)) 3 (by decide)⟩

/-- C9: `initHSM` binds the machine to the initial state and the queue, and
its whole observable trace is one direct `HSM_INITIAL` handler invocation on
the initial state: no `ON_ENTRY` fires anywhere (in particular not on any
ancestor), no `ON_EXIT` fires, and the bound queue is exactly the argument
queue — nothing was enqueued. -/
theorem initHSM_spec : ∀ (s0 : Nat) (q : EventQueue),
    (initHSM s0 q).1 = [Op.fire s0 HSM_INITIAL] ∧
    (initHSM s0 q).2.currentState = s0 ∧
    (initHSM s0 q).2.eventQueue = q ∧
    entriesOf (initHSM s0 q).1 = [] ∧
    exitsOf (initHSM s0 q).1 = [] :=
  fun _ _ => ⟨rfl, rfl, rfl, rfl, rfl⟩

/-- C10: `sendEvent` discards the status of the underlying `putEvent` (in
this embedding its result type carries no status at all): on a machine whose
queue is full it returns the machine completely unchanged, and consequently
the `HSM_INITIAL` that `setState` sends after any transition is silently
lost when the queue is full — the queue after `setState` is exactly the
queue before. -/
theorem sendEvent_silent_drop :
    (∀ m e, m.eventQueue.full = true → sendEvent m e = m) ∧
    (∀ (p : Nat → Nat) m t, m.eventQueue.full = true →
      (setState p m t).2.eventQueue = m.eventQueue) := by
  constructor
  · intro m e hf
    unfold sendEvent
    rw [putEvent_full _ _ hf]
  · intro p m t hf
    unfold setState
    by_cases hc : m.currentState = t
    · rw [if_pos hc]
      show (sendEvent m HSM_INITIAL).eventQueue = m.eventQueue
      unfold sendEvent
      rw [putEvent_full _ _ hf]
    · rw [if_neg hc]
      rcases hpr : pruneLoop (buildPath p m.currentState) (buildPath p t)
          ((buildPath p m.currentState).length - 1)
          ((buildPath p m.currentState).length - 1)
          ((buildPath p t).length - 1) with ⟨noExitF, noEntryF, cc, dc⟩
      show (sendEvent { m with currentState := t } HSM_INITIAL).eventQueue = m.eventQueue
      show (putEvent m.eventQueue HSM_INITIAL).2 = m.eventQueue
      rw [putEvent_full _ _ hf]

/-- Witness for C10: a full 2-slot queue; the sent event vanishes. -/
theorem sendEvent_silent_drop_witness :
    (HSM.mk 1 (pushAll (initEventQueue [0, 0] 2) [5, 6])).eventQueue.full = true ∧
    sendEvent (HSM.mk 1 (pushAll (initEventQueue [0, 0] 2) [5, 6])) 9 =
      HSM.mk 1 (pushAll (initEventQueue [0, 0] 2) [5, 6]) :=
  ⟨by decide,
    sendEvent_silent_drop.1 (HSM.mk 1 (pushAll (initEventQueue [0, 0] 2) [5, 6])) 9 (by decide)⟩

/-- C5: `processHSM` is a drain loop: whenever it returns, the final pop
reported empty (so every event enqueued during the loop, such as the
`HSM_INITIAL` sent by a `setState` performed inside a handler, was popped
and dispatched before returning); each iteration pops one event and invokes
the handler of the state that is current at that moment, and emptiness is
re-checked on the machine the handler returns. -/
theorem processHSM_drains (h : Nat → Nat → HSM → HSM) :
    (∀ fuel m mf log, processHSM h fuel m = some (mf, log) →
      getEvent mf.eventQueue = none ∧ mf.eventQueue.empty = true) ∧
    (∀ fuel m e q', getEvent m.eventQueue = some (e, q') →
      processHSM h (fuel + 1) m =
        match processHSM h fuel (h m.currentState e { m with eventQueue := q' }) with
        | none => none
        | some (mf, log) => some (mf, (m.currentState, e) :: log)) ∧
    (∀ fuel m, getEvent m.eventQueue = none → processHSM h fuel m = some (m, [])) := by
  refine ⟨?_, ?_, ?_⟩
  · intro fuel
    induction fuel with
    | zero =>
      intro m mf log hp
      unfold processHSM at hp
      cases hge : getEvent m.eventQueue with
      | none =>
        rw [hge] at hp
        simp at hp
        rw [← hp.1]
        exact ⟨hge, (getEvent_none_iff _).mp hge⟩
      | some pr =>
        rw [hge] at hp
        simp at hp
    | succ fuel ih =>
      intro m mf log hp
      unfold processHSM at hp
      cases hge : getEvent m.eventQueue with
      | none =>
        rw [hge] at hp
        simp at hp
        rw [← hp.1]
        exact ⟨hge, (getEvent_none_iff _).mp hge⟩
      | some pr =>
        obtain ⟨e, q'⟩ := pr
        rw [hge] at hp
        have hp2 : (match processHSM h fuel (h m.currentState e { m with eventQueue := q' }) with
            | none => none
            | some (mf2, log2) => some (mf2, (m.currentState, e) :: log2)) = some (mf, log) := hp
        cases hrec : processHSM h fuel (h m.currentState e { m with eventQueue := q' }) with
        | none =>
          rw [hrec] at hp2
          simp at hp2
        | some pr2 =>
          obtain ⟨mf2, log2⟩ := pr2
          rw [hrec] at hp2
          simp at hp2
          rw [← hp2.1]
          exact ih _ mf2 log2 hrec
  · intro fuel m e q' hge
    conv_lhs => rw [processHSM]
    rw [hge]
  · intro fuel m hge
    cases fuel with
    | zero =>
      unfold processHSM
      rw [hge]
    | succ fuel =>
      unfold processHSM
      rw [hge]

/-- Handler used by the C5 witness: on event 5 it performs
`setState(hsm, 1)`, which enqueues `HSM_INITIAL`; otherwise it does
nothing. -/
def th : Nat → Nat → HSM → HSM := fun _ e hs => if e = 5 then (setState tp hs 1).2 else hs

/-- Machine used by the C5 witness: state 0 with one event 5 queued. -/
def tm : HSM :=
  HSM.mk 0 (EventQueue.mk [5, 0] 2 1 0 false false)

/-- Witness for C5: draining `tm` dispatches event 5 on state 0, whose
handler transitions to state 1 and enqueues `HSM_INITIAL`; the same
`processHSM` call then dispatches that `HSM_INITIAL` on the new state 1
before returning with an empty queue. -/
theorem processHSM_drains_witness :
    processHSM th 3 tm =
      some (HSM.mk 1 (EventQueue.mk [5, 0] 2 0 0 false true), [(0, 5), (1, 0)]) ∧
    (getEvent (HSM.mk 1 (EventQueue.mk [5, 0] 2 0 0 false true)).eventQueue = none ∧
     (HSM.mk 1 (EventQueue.mk [5, 0] 2 0 0 false true)).eventQueue.empty = true) :=
  ⟨by decide,
    (processHSM_drains th).1 3 tm (HSM.mk 1 (EventQueue.mk [5, 0] 2 0 0 false true))
      [(0, 5), (1, 0)] (by decide)⟩

/-- C1 (refuted by the code): transitioning from `A11` (id 3, chain
`[3, 2, 1, 0]`) to `A2` (id 4, chain `[4, 1, 0]`) has least common ancestor
`A` (id 1), so the claim requires `ON_EXIT` on `3` then `2`.  The code fires
`ON_EXIT` only on `3`: the exit-phase loop decrements its uint8 counter
(`i--` instead of `i++`), so after the first iteration `i` wraps to 255 and
`i <= curr_path_cntr` fails — contradicting hsm.c's own comment
"Execute all on_exit actions for up path". -/
theorem setState_exit_phase_bug :
    exitsOf (setState dp (HSM.mk 3 (initEventQueue [0, 0, 0, 0] 4)) 4).1 = [3] ∧
    buildPath dp 3 = [3, 2, 1, 0] ∧
    buildPath dp 4 = [4, 1, 0] ∧
    exitsOf (setState dp (HSM.mk 3 (initEventQueue [0, 0, 0, 0] 4)) 4).1 ≠ [3, 2] := by
  refine ⟨by decide, by decide, by decide, by decide⟩

/-! ### Ancestor-chain structure

`buildPathAux` produces, for a state whose ancestor chain reaches a root
within the array bound, the chain `[s, parent s, …, root]`.  `IsChain`
captures its characteristic properties: consecutive entries are linked by
`parent`, no entry before the last is a root, and the last entry is one. -/

/-- A list is a parent chain: nonempty, each entry's successor is its
parent, only the last entry is self-parented. -/
def IsChain (p : Nat → Nat) (l : List Nat) : Prop :=
  1 ≤ l.length ∧
  (∀ i, i + 1 < l.length →
    l.getD (i + 1) 0 = p (l.getD i 0) ∧ p (l.getD i 0) ≠ l.getD i 0) ∧
  p (l.getD (l.length - 1) 0) = l.getD (l.length - 1) 0

theorem bpa_getD_zero (p : Nat → Nat) (s : Nat) (f : Nat) :
    (buildPathAux p s f).getD 0 0 = s := by
  cases f with
  | zero => rfl
  | succ f =>
    unfold buildPathAux
    split <;> rfl

theorem bpa_length_pos (p : Nat → Nat) (s : Nat) (f : Nat) :
    1 ≤ (buildPathAux p s f).length := by
  cases f with
  | zero => simp [buildPathAux]
  | succ f =>
    unfold buildPathAux
    split <;> simp

theorem bpa_length_le (p : Nat → Nat) :
    ∀ f s, (buildPathAux p s f).length ≤ f + 1 := by
  intro f
  induction f with
  | zero => intro s; simp [buildPathAux]
  | succ f ih =>
    intro s
    unfold buildPathAux
    split
    · simp
    · have := ih (p s)
      simp only [List.length_cons]
      omega

theorem bpa_chain (p : Nat → Nat) :
    ∀ f s, reachesRoot p s f = true → IsChain p (buildPathAux p s f) := by
  intro f
  induction f with
  | zero =>
    intro s hr
    have hps : p s = s := by simpa [reachesRoot] using hr
    refine ⟨by simp [buildPathAux], ?_, by simpa [buildPathAux] using hps⟩
    intro i hi
    simp [buildPathAux] at hi
  | succ f ih =>
    intro s hr
    by_cases hps : p s = s
    · have hbpa : buildPathAux p s (f + 1) = [s] := by
        unfold buildPathAux
        rw [if_pos hps]
      rw [hbpa]
      refine ⟨by simp, ?_, by simpa using hps⟩
      intro i hi
      simp at hi
    · have hr' : reachesRoot p (p s) f = true := by
        unfold reachesRoot at hr
        have hbeq : (p s == s) = false := by simpa using hps
        rw [hbeq] at hr
        simpa using hr
      have hbpa : buildPathAux p s (f + 1) = s :: buildPathAux p (p s) f := by
        simp only [buildPathAux]
        rw [if_neg hps]
      obtain ⟨hlen, hstep, hlast⟩ := ih (p s) hr'
      rw [hbpa]
      refine ⟨by simp, ?_, ?_⟩
      · intro i hi
        cases i with
        | zero =>
          constructor
          · show (buildPathAux p (p s) f).getD 0 0 = p s
            exact bpa_getD_zero p (p s) f
          · exact hps
        | succ i =>
          simp only [List.length_cons] at hi
          have := hstep i (by omega)
          simpa [List.getD_cons_succ] using this
      · have he : (s :: buildPathAux p (p s) f).length - 1 =
            ((buildPathAux p (p s) f).length - 1) + 1 := by
          simp only [List.length_cons]
          omega
        rw [he, List.getD_cons_succ]
        exact hlast

theorem chain_agree (p : Nat → Nat) (u v : List Nat)
    (hu : IsChain p u) (hv : IsChain p v) :
    ∀ k i j, i + k ≤ u.length - 1 → j + k ≤ v.length - 1 →
      u.getD i 0 = v.getD j 0 → u.getD (i + k) 0 = v.getD (j + k) 0 := by
  intro k
  induction k with
  | zero => intro i j _ _ h; simpa using h
  | succ k ihk =>
    intro i j hik hjk heq
    have hul := hu.1
    have hvl := hv.1
    have h1 : u.getD (i + k) 0 = v.getD (j + k) 0 := ihk i j (by omega) (by omega) heq
    have hstepu := (hu.2.1 (i + k) (by omega)).1
    have hstepv := (hv.2.1 (j + k) (by omega)).1
    have e1 : i + (k + 1) = (i + k) + 1 := by omega
    have e2 : j + (k + 1) = (j + k) + 1 := by omega
    rw [e1, e2, hstepu, hstepv, h1]

theorem chain_depth_le (p : Nat → Nat) (u v : List Nat)
    (hu : IsChain p u) (hv : IsChain p v) :
    ∀ i j, i ≤ u.length - 1 → j ≤ v.length - 1 → u.getD i 0 = v.getD j 0 →
      u.length - 1 - i ≤ v.length - 1 - j := by
  intro i j hi hj heq
  by_contra hc
  push_neg at hc
  have hul := hu.1
  have hvl := hv.1
  have hagree := chain_agree p u v hu hv (v.length - 1 - j) i j (by omega) (by omega) heq
  have hjb : j + (v.length - 1 - j) = v.length - 1 := by omega
  rw [hjb] at hagree
  have hstep := (hu.2.1 (i + (v.length - 1 - j)) (by omega)).2
  rw [hagree] at hstep
  exact hstep hv.2.2

theorem chain_depth_eq (p : Nat → Nat) (u v : List Nat)
    (hu : IsChain p u) (hv : IsChain p v)
    (i j : Nat) (hi : i ≤ u.length - 1) (hj : j ≤ v.length - 1)
    (heq : u.getD i 0 = v.getD j 0) :
    u.length - 1 - i = v.length - 1 - j :=
  Nat.le_antisymm (chain_depth_le p u v hu hv i j hi hj heq)
    (chain_depth_le p v u hv hu j i hj hi heq.symm)

/-- Length of the longest common prefix of two lists. -/
def pref : List Nat → List Nat → Nat
  | a :: as, b :: bs => if a = b then pref as bs + 1 else 0
  | _, _ => 0

theorem pref_le_left : ∀ (a b : List Nat), pref a b ≤ a.length := by
  intro a
  induction a with
  | nil => intro b; cases b <;> simp [pref]
  | cons x as ih =>
    intro b
    cases b with
    | nil => simp [pref]
    | cons y bs =>
      unfold pref
      split
      · have := ih bs
        simp only [List.length_cons]
        omega
      · simp

theorem pref_le_right : ∀ (a b : List Nat), pref a b ≤ b.length := by
  intro a
  induction a with
  | nil => intro b; cases b <;> simp [pref]
  | cons x as ih =>
    intro b
    cases b with
    | nil => simp [pref]
    | cons y bs =>
      unfold pref
      split
      · have := ih bs
        simp only [List.length_cons]
        omega
      · simp

theorem pref_agree : ∀ (a b : List Nat) (j : Nat), j < pref a b →
    a.getD j 0 = b.getD j 0 := by
  intro a
  induction a with
  | nil => intro b j h; cases b <;> simp [pref] at h
  | cons x as ih =>
    intro b j h
    cases b with
    | nil => simp [pref] at h
    | cons y bs =>
      unfold pref at h
      split at h
      · cases j with
        | zero => simpa using (by assumption : x = y)
        | succ j =>
          simp only [List.getD_cons_succ]
          exact ih bs j (by omega)
      · omega

theorem pref_mismatch : ∀ (a b : List Nat), pref a b < a.length →
    pref a b < b.length → a.getD (pref a b) 0 ≠ b.getD (pref a b) 0 := by
  intro a
  induction a with
  | nil => intro b h _; simp at h
  | cons x as ih =>
    intro b ha hb
    cases b with
    | nil => simp at hb
    | cons y bs =>
      by_cases hxy : x = y
      · have hp : pref (x :: as) (y :: bs) = pref as bs + 1 := by
          simp only [pref]
          rw [if_pos hxy]
        rw [hp] at ha hb ⊢
        simp only [List.length_cons] at ha hb
        simp only [List.getD_cons_succ]
        exact ih bs (by omega) (by omega)
      · have hp : pref (x :: as) (y :: bs) = 0 := by
          unfold pref
          rw [if_neg hxy]
        rw [hp]
        simpa using hxy

theorem pref_ge : ∀ (a b : List Nat) (k : Nat), k ≤ a.length → k ≤ b.length →
    (∀ j, j < k → a.getD j 0 = b.getD j 0) → k ≤ pref a b := by
  intro a
  induction a with
  | nil => intro b k hk _ _; simp at hk; omega
  | cons x as ih =>
    intro b k hka hkb hag
    cases k with
    | zero => omega
    | succ k =>
      cases b with
      | nil => simp at hkb
      | cons y bs =>
        have hxy : x = y := by simpa using hag 0 (by omega)
        have hp : pref (x :: as) (y :: bs) = pref as bs + 1 := by
          simp only [pref]
          rw [if_pos hxy]
        rw [hp]
        have := ih bs k (by simpa using Nat.lt_succ_iff.mp (Nat.lt_of_lt_of_le (Nat.lt_succ_self k) hka))
        have hk' : k ≤ pref as bs := by
          apply ih bs k
          · simp only [List.length_cons] at hka; omega
          · simp only [List.length_cons] at hkb; omega
          · intro j hj
            have := hag (j + 1) (by omega)
            simpa [List.getD_cons_succ] using this
        omega

theorem getD_reverse (l : List Nat) (j : Nat) (h : j < l.length) :
    l.reverse.getD j 0 = l.getD (l.length - 1 - j) 0 := by
  rw [List.getD_eq_getElem _ _ (by simpa using h),
    List.getD_eq_getElem _ _ (by omega), List.getElem_reverse]

theorem mem_iff_getD (l : List Nat) (x : Nat) :
    x ∈ l ↔ ∃ i, i < l.length ∧ l.getD i 0 = x := by
  rw [List.mem_iff_getElem]
  constructor
  · rintro ⟨i, hi, hx⟩
    exact ⟨i, hi, by rw [List.getD_eq_getElem _ _ hi]; exact hx⟩
  · rintro ⟨i, hi, hx⟩
    exact ⟨i, hi, by rw [← List.getD_eq_getElem _ _ hi]; exact hx⟩

/-- `pruneLoop` when the walk stops at a mismatch after `c` both-decrement
iterations: neither degenerate flag is set and both counters dropped by `c`. -/
theorem prune_mismatch (up down : List Nat) :
    ∀ c fuel cc dc, c ≤ fuel → c ≤ cc → c ≤ dc → cc ≤ 255 → dc ≤ 255 →
      (∀ j, j < c → up.getD (cc - j) 0 = down.getD (dc - j) 0) →
      up.getD (cc - c) 0 ≠ down.getD (dc - c) 0 →
      pruneLoop up down fuel cc dc = (false, false, cc - c, dc - c) := by
  intro c
  induction c with
  | zero =>
    intro fuel cc dc _ _ _ _ _ _ hmis
    simp only [Nat.sub_zero] at hmis ⊢
    cases fuel with
    | zero => unfold pruneLoop; rw [if_neg hmis]
    | succ f => unfold pruneLoop; rw [if_neg hmis]
  | succ c ihc =>
    intro fuel cc dc hf hcc hdc hcb hdb hag hmis
    obtain ⟨f, rfl⟩ : ∃ f, fuel = f + 1 := ⟨fuel - 1, by omega⟩
    have heq0 : up.getD cc 0 = down.getD dc 0 := by simpa using hag 0 (by omega)
    have hccne : cc ≠ 0 := by omega
    have hdcne : dc ≠ 0 := by omega
    have hd8c : dec8 cc = cc - 1 := by unfold dec8; omega
    have hd8d : dec8 dc = dc - 1 := by unfold dec8; omega
    unfold pruneLoop
    rw [if_pos heq0, if_neg hccne, if_neg hdcne, hd8c, hd8d]
    have hres := ihc f (cc - 1) (dc - 1) (by omega) (by omega) (by omega)
      (by omega) (by omega)
      (fun j hj => by
        have h1 := hag (j + 1) (by omega)
        have e1 : cc - (j + 1) = cc - 1 - j := by omega
        have e2 : dc - (j + 1) = dc - 1 - j := by omega
        rw [e1, e2] at h1
        exact h1)
      (by
        have e1 : cc - 1 - c = cc - (c + 1) := by omega
        have e2 : dc - 1 - c = dc - (c + 1) := by omega
        rw [e1, e2]
        exact hmis)
    rw [hres]
    have e1 : cc - 1 - c = cc - (c + 1) := by omega
    have e2 : dc - 1 - c = dc - (c + 1) := by omega
    rw [e1, e2]

/-- `pruneLoop` when the up path runs out first (`S` an ancestor of `T`):
the `no_exit` branch fires, with one uint8 decrement of the destination
counter. -/
theorem prune_noExit (up down : List Nat) :
    ∀ c fuel dc, c ≤ fuel → c < dc → dc ≤ 255 →
      (∀ j, j ≤ c → up.getD (c - j) 0 = down.getD (dc - j) 0) →
      pruneLoop up down fuel c dc = (true, false, 0, dc - c - 1) := by
  intro c
  induction c with
  | zero =>
    intro fuel dc _ hdc hdb hag
    have heq0 : up.getD 0 0 = down.getD dc 0 := by simpa using hag 0 (by omega)
    have hd8 : dec8 dc = dc - 1 := by unfold dec8; omega
    cases fuel with
    | zero =>
      unfold pruneLoop
      rw [if_pos heq0, if_pos rfl, hd8]
      simp
    | succ f =>
      unfold pruneLoop
      rw [if_pos heq0, if_pos rfl, hd8]
      simp
  | succ c ihc =>
    intro fuel dc hf hdc hdb hag
    obtain ⟨f, rfl⟩ : ∃ f, fuel = f + 1 := ⟨fuel - 1, by omega⟩
    have heq0 : up.getD (c + 1) 0 = down.getD dc 0 := by simpa using hag 0 (by omega)
    have hccne : c + 1 ≠ 0 := by omega
    have hdcne : dc ≠ 0 := by omega
    have hd8c : dec8 (c + 1) = c := by unfold dec8; omega
    have hd8d : dec8 dc = dc - 1 := by unfold dec8; omega
    unfold pruneLoop
    rw [if_pos heq0, if_neg hccne, if_neg hdcne, hd8c, hd8d]
    have hres := ihc f (dc - 1) (by omega) (by omega) (by omega)
      (fun j hj => by
        have h1 := hag (j + 1) (by omega)
        have e1 : c + 1 - (j + 1) = c - j := by omega
        have e2 : dc - (j + 1) = dc - 1 - j := by omega
        rw [e1, e2] at h1
        exact h1)
    rw [hres]
    have e1 : dc - 1 - c - 1 = dc - (c + 1) - 1 := by omega
    rw [e1]

/-- `pruneLoop` when the down path runs out first (`T` an ancestor of `S`):
the `no_entry` branch fires, with one uint8 decrement of the current-state
counter. -/
theorem prune_noEntry (up down : List Nat) :
    ∀ c fuel cc, c ≤ fuel → c < cc → cc ≤ 255 →
      (∀ j, j ≤ c → up.getD (cc - j) 0 = down.getD (c - j) 0) →
      pruneLoop up down fuel cc c = (false, true, cc - c - 1, 0) := by
  intro c
  induction c with
  | zero =>
    intro fuel cc _ hcc hcb hag
    have heq0 : up.getD cc 0 = down.getD 0 0 := by simpa using hag 0 (by omega)
    have hccne : cc ≠ 0 := by omega
    have hd8 : dec8 cc = cc - 1 := by unfold dec8; omega
    cases fuel with
    | zero =>
      unfold pruneLoop
      rw [if_pos heq0, if_neg hccne, if_pos rfl, hd8]
      simp
    | succ f =>
      unfold pruneLoop
      rw [if_pos heq0, if_neg hccne, if_pos rfl, hd8]
      simp
  | succ c ihc =>
    intro fuel cc hf hcc hcb hag
    obtain ⟨f, rfl⟩ : ∃ f, fuel = f + 1 := ⟨fuel - 1, by omega⟩
    have heq0 : up.getD cc 0 = down.getD (c + 1) 0 := by simpa using hag 0 (by omega)
    have hccne : cc ≠ 0 := by omega
    have hdcne : c + 1 ≠ 0 := by omega
    have hd8c : dec8 cc = cc - 1 := by unfold dec8; omega
    have hd8d : dec8 (c + 1) = c := by unfold dec8; omega
    unfold pruneLoop
    rw [if_pos heq0, if_neg hccne, if_neg hdcne, hd8c, hd8d]
    have hres := ihc f (cc - 1) (by omega) (by omega) (by omega)
      (fun j hj => by
        have h1 := hag (j + 1) (by omega)
        have e1 : cc - (j + 1) = cc - 1 - j := by omega
        have e2 : c + 1 - (j + 1) = c - j := by omega
        rw [e1, e2] at h1
        exact h1)
    rw [hres]
    have e1 : cc - 1 - c - 1 = cc - (c + 1) - 1 := by omega
    rw [e1]

/-- The exit loop fires exactly one handler — on `up[0]` — whenever
`curr_path_cntr ≤ 254`: after the first iteration the uint8 counter wraps
from 0 to 255 and the loop guard fails. -/
theorem exitLoop_eval (up : List Nat) (cc : Nat) (h : cc ≤ 254) :
    exitLoop up cc 0 256 = [up.getD 0 0] := by
  show exitLoop up cc 0 (255 + 1) = _
  unfold exitLoop
  rw [if_pos (Nat.zero_le cc)]
  have h2 : exitLoop up cc (dec8 0) 255 = [] := by
    show exitLoop up cc 255 (254 + 1) = _
    unfold exitLoop
    rw [if_neg (show ¬(255 ≤ cc) by omega)]
  rw [h2]

/-- The entry do-while loop entered with counter `i` (for `1 ≤ i ≤ 255`,
`i` within the path and enough fuel) fires `down[i-1], …, down[0]`, i.e. the
reversal of the first `i` path entries. -/
theorem entryLoop_eval : ∀ (i : Nat), 1 ≤ i → i ≤ 255 → ∀ (down : List Nat),
    i ≤ down.length → ∀ fuel, i ≤ fuel →
    entryLoop down i fuel = (down.take i).reverse := by
  intro i
  induction i with
  | zero => intro h; omega
  | succ k ihk =>
    intro _ hle down hlen fuel hfuel
    obtain ⟨f, rfl⟩ : ∃ f, fuel = f + 1 := ⟨fuel - 1, by omega⟩
    have hd8 : dec8 (k + 1) = k := by unfold dec8; omega
    unfold entryLoop
    rw [hd8]
    by_cases hk : k = 0
    · subst hk
      rw [if_pos rfl]
      cases down with
      | nil => simp at hlen
      | cons d rest => simp
    · rw [if_neg hk]
      rw [ihk (by omega) (by omega) down (by omega) f (by omega)]
      have hk' : k < down.length := by omega
      rw [List.getD_eq_getElem _ _ hk', List.take_succ, List.getElem?_eq_getElem hk']
      rw [List.reverse_append]
      simp only [Option.toList_some, List.reverse_singleton, List.singleton_append]

theorem entriesOf_append (a b : List Op) :
    entriesOf (a ++ b) = entriesOf a ++ entriesOf b :=
  List.filterMap_append a b _

theorem entriesOf_exitMap (l : List Nat) :
    entriesOf (l.map fun st => Op.fire st HSM_ON_EXIT) = [] := by
  induction l with
  | nil => rfl
  | cons x xs ih =>
    simp only [List.map_cons]
    show entriesOf (Op.fire x HSM_ON_EXIT :: xs.map fun st => Op.fire st HSM_ON_EXIT) = []
    unfold entriesOf at ih ⊢
    rw [List.filterMap_cons]
    simpa [HSM_ON_EXIT, HSM_ON_ENTRY] using ih

theorem entriesOf_entryMap (l : List Nat) :
    entriesOf (l.map fun st => Op.fire st HSM_ON_ENTRY) = l := by
  induction l with
  | nil => rfl
  | cons x xs ih =>
    simp only [List.map_cons]
    show entriesOf (Op.fire x HSM_ON_ENTRY :: xs.map fun st => Op.fire st HSM_ON_ENTRY) = x :: xs
    unfold entriesOf at ih ⊢
    rw [List.filterMap_cons]
    simpa using ih

theorem entriesOf_pair (t : Nat) :
    entriesOf [Op.assign t, Op.send HSM_INITIAL] = [] := rfl

theorem entriesOf_ifExit (b : Bool) (l : List Nat) :
    entriesOf (if b then [] else l.map fun st => Op.fire st HSM_ON_EXIT) = [] := by
  cases b
  · simpa using entriesOf_exitMap l
  · rfl

/-- The trace of a general transition, given the prune-loop outcome. -/
theorem setState_traceEq (p : Nat → Nat) (m : HSM) (t : Nat)
    (hne : m.currentState ≠ t) (noExitF noEntryF : Bool) (cc dc : Nat)
    (hpr : pruneLoop (buildPath p m.currentState) (buildPath p t)
      ((buildPath p m.currentState).length - 1)
      ((buildPath p m.currentState).length - 1)
      ((buildPath p t).length - 1) = (noExitF, noEntryF, cc, dc)) :
    (setState p m t).1 =
      (if noExitF then []
       else (exitLoop (buildPath p m.currentState) cc 0 256).map
         (fun st => Op.fire st HSM_ON_EXIT)) ++
      (if noEntryF then []
       else (entryLoop (buildPath p t) ((dc + 1) % 256) 256).map
         (fun st => Op.fire st HSM_ON_ENTRY)) ++
      [Op.assign t, Op.send HSM_INITIAL] := by
  unfold setState
  rw [if_neg hne, hpr]

/-- Two chains sharing a node agree from that node up, have the same number
of nodes above it, and their reversals share a prefix covering it. -/
theorem chain_mem_common (p : Nat → Nat) (u v : List Nat)
    (hu : IsChain p u) (hv : IsChain p v)
    (i j : Nat) (hi : i ≤ u.length - 1) (hj : j ≤ v.length - 1)
    (heq : u.getD i 0 = v.getD j 0) :
    u.length - 1 - i = v.length - 1 - j ∧
      (v.length - 1 - j) + 1 ≤ pref u.reverse v.reverse := by
  have hul := hu.1
  have hvl := hv.1
  have hdep : u.length - 1 - i = v.length - 1 - j :=
    chain_depth_eq p u v hu hv i j hi hj heq
  refine ⟨hdep, ?_⟩
  apply pref_ge
  · rw [List.length_reverse]
    omega
  · rw [List.length_reverse]
    omega
  · intro j' hj'
    rw [getD_reverse u j' (by omega), getD_reverse v j' (by omega)]
    have hk := chain_agree p u v hu hv ((u.length - 1 - i) - j') i j
      (by omega) (by omega) heq
    have e1 : i + ((u.length - 1 - i) - j') = u.length - 1 - j' := by omega
    have e2 : j + ((u.length - 1 - i) - j') = v.length - 1 - j' := by omega
    rw [e1, e2] at hk
    exact hk

/-- Outcome of the compare-and-prune loop on two chains `u` (from the
current state) and `v` (from the target) of the same hierarchy: if the
target is on `u`'s chain the `no_entry` branch is taken; otherwise the
entry phase is enabled and the final destination counter is
`v.length - 1 - pref u.reverse v.reverse`, one below the index of the
deepest common node of the two chains. -/
theorem prune_chains (p : Nat → Nat) (u v : List Nat)
    (hu : IsChain p u) (hv : IsChain p v)
    (hub : u.length ≤ 16) (hvb : v.length ≤ 16)
    (hroot : u.getD (u.length - 1) 0 = v.getD (v.length - 1) 0)
    (hne : u.getD 0 0 ≠ v.getD 0 0) :
    (v.getD 0 0 ∈ u →
      pruneLoop u v (u.length - 1) (u.length - 1) (v.length - 1) =
        (false, true, u.length - 1 - (v.length - 1) - 1, 0)) ∧
    (v.getD 0 0 ∉ u →
      ∃ noEx cc, pruneLoop u v (u.length - 1) (u.length - 1) (v.length - 1) =
        (noEx, false, cc, v.length - 1 - pref u.reverse v.reverse) ∧
        1 ≤ pref u.reverse v.reverse ∧
        pref u.reverse v.reverse ≤ v.length - 1) := by
  have hul := hu.1
  have hvl := hv.1
  have hc1 : 1 ≤ pref u.reverse v.reverse := by
    apply pref_ge
    · rw [List.length_reverse]; omega
    · rw [List.length_reverse]; omega
    · intro j hj
      have hj0 : j = 0 := by omega
      subst hj0
      rw [getD_reverse u 0 (by omega), getD_reverse v 0 (by omega)]
      simpa using hroot
  have hcm : pref u.reverse v.reverse ≤ u.length := by
    have := pref_le_left u.reverse v.reverse
    rwa [List.length_reverse] at this
  have hcn : pref u.reverse v.reverse ≤ v.length := by
    have := pref_le_right u.reverse v.reverse
    rwa [List.length_reverse] at this
  have hragree : ∀ j, j < pref u.reverse v.reverse →
      u.getD (u.length - 1 - j) 0 = v.getD (v.length - 1 - j) 0 := by
    intro j hj
    have h1 := pref_agree u.reverse v.reverse j hj
    rw [getD_reverse u j (by omega), getD_reverse v j (by omega)] at h1
    exact h1
  have hnotboth : ¬(pref u.reverse v.reverse = u.length ∧
      pref u.reverse v.reverse = v.length) := by
    rintro ⟨h1, h2⟩
    have hagr := hragree (u.length - 1) (by omega)
    have e1 : u.length - 1 - (u.length - 1) = 0 := by omega
    have e2 : v.length - 1 - (u.length - 1) = 0 := by omega
    rw [e1, e2] at hagr
    exact hne hagr
  have hmem_imp : v.getD 0 0 ∈ u → pref u.reverse v.reverse = v.length := by
    intro hmem
    obtain ⟨i, hi, hieq⟩ := (mem_iff_getD u (v.getD 0 0)).mp hmem
    obtain ⟨h1, h2⟩ := chain_mem_common p u v hu hv i 0 (by omega) (by omega) hieq
    omega
  have himp_mem : pref u.reverse v.reverse = v.length → v.getD 0 0 ∈ u := by
    intro hc
    have hj := hragree (v.length - 1) (by omega)
    have e2 : v.length - 1 - (v.length - 1) = 0 := by omega
    rw [e2] at hj
    exact (mem_iff_getD u (v.getD 0 0)).mpr
      ⟨u.length - 1 - (v.length - 1), by omega, hj⟩
  constructor
  · intro hmem
    have hc : pref u.reverse v.reverse = v.length := hmem_imp hmem
    have hlt : v.length - 1 < u.length - 1 := by
      rcases Nat.lt_or_ge (v.length - 1) (u.length - 1) with h | h
      · exact h
      · exfalso; exact hnotboth ⟨by omega, hc⟩
    apply prune_noEntry u v (v.length - 1) (u.length - 1) (u.length - 1)
      (by omega) hlt (by omega)
    intro j hj
    exact hragree j (by omega)
  · intro hnm
    have hcn' : pref u.reverse v.reverse ≤ v.length - 1 := by
      rcases Nat.lt_or_ge (pref u.reverse v.reverse) v.length with h | h
      · omega
      · exfalso; exact hnm (himp_mem (by omega))
    by_cases hcM : pref u.reverse v.reverse = u.length
    · refine ⟨true, 0, ?_, hc1, hcn'⟩
      have hlt : u.length - 1 < v.length - 1 := by omega
      have hres := prune_noExit u v (u.length - 1) (u.length - 1) (v.length - 1)
        (Nat.le_refl _) hlt (by omega)
        (fun j hj => hragree j (by omega))
      rw [hres]
      have e : v.length - 1 - (u.length - 1) - 1 =
          v.length - 1 - pref u.reverse v.reverse := by omega
      rw [e]
    · have hcM' : pref u.reverse v.reverse ≤ u.length - 1 := by omega
      refine ⟨false, u.length - 1 - pref u.reverse v.reverse, ?_, hc1, hcn'⟩
      have hmis := pref_mismatch u.reverse v.reverse
        (by rw [List.length_reverse]; omega) (by rw [List.length_reverse]; omega)
      rw [getD_reverse u _ (by omega), getD_reverse v _ (by omega)] at hmis
      exact prune_mismatch u v (pref u.reverse v.reverse) (u.length - 1)
        (u.length - 1) (v.length - 1) (by omega) (by omega) (by omega)
        (by omega) (by omega) (fun j hj => hragree j hj) hmis

/-- Index, in the target's chain `buildPath p t`, of the deepest node shared
with the chain of `s`: everything strictly below it is entered on a
transition from `s` to `t`. -/
def lcaIdx (p : Nat → Nat) (s t : Nat) : Nat :=
  (buildPath p t).length - pref (buildPath p s).reverse (buildPath p t).reverse

/-- C2: on a general transition from `S = currentState` to `T` in the same
hierarchy (same root, both ancestor chains within the 16-entry bound), the
`ON_ENTRY` firings of `setState` are exactly the chain from the child of the
least common ancestor down to `T`, in outermost-first order — and the entry
phase is skipped entirely exactly when `T` is an ancestor of `S`.  The index
`lcaIdx` is characterised as the LCA: the node of `T`'s chain sitting at it
is on `S`'s chain, while every node strictly below it is not. -/
theorem setState_entry_phase (p : Nat → Nat) (m : HSM) (t : Nat)
    (hS : reachesRoot p m.currentState 15 = true)
    (hT : reachesRoot p t 15 = true)
    (hroot : (buildPath p m.currentState).getD ((buildPath p m.currentState).length - 1) 0 =
             (buildPath p t).getD ((buildPath p t).length - 1) 0)
    (hne : m.currentState ≠ t) :
    (t ∈ buildPath p m.currentState → entriesOf (setState p m t).1 = []) ∧
    (t ∉ buildPath p m.currentState →
      entriesOf (setState p m t).1 =
        ((buildPath p t).take (lcaIdx p m.currentState t)).reverse ∧
      (buildPath p t).getD (lcaIdx p m.currentState t) 0 ∈ buildPath p m.currentState ∧
      ∀ j, j < lcaIdx p m.currentState t →
        (buildPath p t).getD j 0 ∉ buildPath p m.currentState) := by
  have hchU : IsChain p (buildPath p m.currentState) := bpa_chain p 15 m.currentState hS
  have hchV : IsChain p (buildPath p t) := bpa_chain p 15 t hT
  have hul := hchU.1
  have hvl := hchV.1
  have hub : (buildPath p m.currentState).length ≤ 16 := bpa_length_le p 15 m.currentState
  have hvb : (buildPath p t).length ≤ 16 := bpa_length_le p 15 t
  have hu0 : (buildPath p m.currentState).getD 0 0 = m.currentState :=
    bpa_getD_zero p m.currentState 15
  have hv0 : (buildPath p t).getD 0 0 = t := bpa_getD_zero p t 15
  have hne0 : (buildPath p m.currentState).getD 0 0 ≠ (buildPath p t).getD 0 0 := by
    rw [hu0, hv0]; exact hne
  have hcm : pref (buildPath p m.currentState).reverse (buildPath p t).reverse ≤
      (buildPath p m.currentState).length := by
    have := pref_le_left (buildPath p m.currentState).reverse (buildPath p t).reverse
    rwa [List.length_reverse] at this
  have hkdef : lcaIdx p m.currentState t =
      (buildPath p t).length -
        pref (buildPath p m.currentState).reverse (buildPath p t).reverse := rfl
  obtain ⟨hpcA, hpcB⟩ := prune_chains p (buildPath p m.currentState) (buildPath p t)
    hchU hchV hub hvb hroot hne0
  constructor
  · intro hmem
    have hmem' : (buildPath p t).getD 0 0 ∈ buildPath p m.currentState := by
      rw [hv0]; exact hmem
    have hpr := hpcA hmem'
    have htr := setState_traceEq p m t hne false true
      ((buildPath p m.currentState).length - 1 - ((buildPath p t).length - 1) - 1) 0 hpr
    rw [htr, entriesOf_append, entriesOf_append, entriesOf_ifExit, if_pos rfl]
    rfl
  · intro hnm
    have hnm' : (buildPath p t).getD 0 0 ∉ buildPath p m.currentState := by
      rw [hv0]; exact hnm
    obtain ⟨noEx, cc, hpr, hc1, hcn'⟩ := hpcB hnm'
    have htr := setState_traceEq p m t hne noEx false cc
      ((buildPath p t).length - 1 -
        pref (buildPath p m.currentState).reverse (buildPath p t).reverse) hpr
    have hk1 : 1 ≤ lcaIdx p m.currentState t := by omega
    have hkv : lcaIdx p m.currentState t ≤ (buildPath p t).length := by omega
    have hk255 : lcaIdx p m.currentState t ≤ 255 := by omega
    have hdck : ((buildPath p t).length - 1 -
        pref (buildPath p m.currentState).reverse (buildPath p t).reverse) + 1 =
        lcaIdx p m.currentState t := by omega
    refine ⟨?_, ?_, ?_⟩
    · rw [htr, entriesOf_append, entriesOf_append, entriesOf_ifExit,
        if_neg Bool.false_ne_true, entriesOf_entryMap]
      have hmod : (((buildPath p t).length - 1 -
          pref (buildPath p m.currentState).reverse (buildPath p t).reverse) + 1) % 256 =
          ((buildPath p t).length - 1 -
          pref (buildPath p m.currentState).reverse (buildPath p t).reverse) + 1 :=
        Nat.mod_eq_of_lt (by omega)
      rw [hmod, hdck,
        entryLoop_eval (lcaIdx p m.currentState t) hk1 hk255 (buildPath p t) hkv 256 (by omega)]
      simp [entriesOf_pair]
    · have hj := pref_agree (buildPath p m.currentState).reverse (buildPath p t).reverse
        (pref (buildPath p m.currentState).reverse (buildPath p t).reverse - 1) (by omega)
      rw [getD_reverse _ _ (by omega), getD_reverse _ _ (by omega)] at hj
      have e2 : (buildPath p t).length - 1 -
          (pref (buildPath p m.currentState).reverse (buildPath p t).reverse - 1) =
          lcaIdx p m.currentState t := by omega
      rw [e2] at hj
      exact (mem_iff_getD _ _).mpr
        ⟨(buildPath p m.currentState).length - 1 -
          (pref (buildPath p m.currentState).reverse (buildPath p t).reverse - 1),
         by omega, hj⟩
    · intro j hj hmem2
      obtain ⟨i, hi, hieq⟩ := (mem_iff_getD _ _).mp hmem2
      obtain ⟨-, h2⟩ := chain_mem_common p (buildPath p m.currentState) (buildPath p t)
        hchU hchV i j (by omega) (by omega) hieq
      omega

/-- Witness for C2: sibling transition from state 2 (`A1`) to state 3
(`A2`) in `Root(0) ← A(1) ← {A1(2), A2(3)}`: exactly one `ON_ENTRY`, on
`A2`, and the LCA index points at `A`. -/
theorem setState_entry_phase_witness :
    (reachesRoot tp (HSM.mk 2 (initEventQueue [0, 0, 0, 0] 4)).currentState 15 = true ∧
     reachesRoot tp 3 15 = true ∧
     (buildPath tp (HSM.mk 2 (initEventQueue [0, 0, 0, 0] 4)).currentState).getD
       ((buildPath tp (HSM.mk 2 (initEventQueue [0, 0, 0, 0] 4)).currentState).length - 1) 0 =
       (buildPath tp 3).getD ((buildPath tp 3).length - 1) 0 ∧
     (HSM.mk 2 (initEventQueue [0, 0, 0, 0] 4)).currentState ≠ 3) ∧
    ((3 ∈ buildPath tp (HSM.mk 2 (initEventQueue [0, 0, 0, 0] 4)).currentState →
       entriesOf (setState tp (HSM.mk 2 (initEventQueue [0, 0, 0, 0] 4)) 3).1 = []) ∧
     (3 ∉ buildPath tp (HSM.mk 2 (initEventQueue [0, 0, 0, 0] 4)).currentState →
       entriesOf (setState tp (HSM.mk 2 (initEventQueue [0, 0, 0, 0] 4)) 3).1 =
         ((buildPath tp 3).take
           (lcaIdx tp (HSM.mk 2 (initEventQueue [0, 0, 0, 0] 4)).currentState 3)).reverse ∧
       (buildPath tp 3).getD
         (lcaIdx tp (HSM.mk 2 (initEventQueue [0, 0, 0, 0] 4)).currentState 3) 0 ∈
         buildPath tp (HSM.mk 2 (initEventQueue [0, 0, 0, 0] 4)).currentState ∧
       ∀ j, j < lcaIdx tp (HSM.mk 2 (initEventQueue [0, 0, 0, 0] 4)).currentState 3 →
         (buildPath tp 3).getD j 0 ∉
           buildPath tp (HSM.mk 2 (initEventQueue [0, 0, 0, 0] 4)).currentState)) :=
  ⟨⟨by decide, by decide, by decide, by decide⟩,
   setState_entry_phase tp (HSM.mk 2 (initEventQueue [0, 0, 0, 0] 4)) 3
     (by decide) (by decide) (by decide) (by decide)⟩

end Hsm
